import Mathlib

set_option maxHeartbeats 1000000

/-!
Shallow embedding of the saulify rule-driven extraction engine
(`saulify/scrapers/cascade.py`, `saulify/scrapers/instapaper.py`,
`saulify/sitespec.py`) and proofs about its behaviour.

Strings manipulated character-by-character by the Python code are embedded as
`List Char`; Python dictionaries with insertion order are embedded as
association lists.
-/

namespace Saulify

/-- Boolean substring test: `isInfixB needle hay` is Python's `needle in hay`.
Python treats the empty string as contained in everything, including the
empty string itself. -/
def isInfixB (needle : List Char) : List Char → Bool
  | [] => needle.isEmpty
  | c :: cs => needle.isPrefixOf (c :: cs) || isInfixB needle cs

/-- Python's `hostname.partition(".")[2]`: the remainder of the string after
the first dot, or the empty string when no dot occurs. -/
def afterFirstDot : List Char → List Char
  | [] => []
  | c :: cs => if c = '.' then cs else afterFirstDot cs

/-- Modelled from the spec: the parsed rule set produced by
`saulify.sitespec.load_rules`, which is called by `load_sitespec` but whose
body is not among the embedded sources.  Per the spec's data model a rule set
maps each recognised list directive to an ordered list of string values
(absent directives behave as the empty list) and carries two boolean flag
directives which are true unless explicitly disabled with the literal value
"no".  The `find_replace` field holds the positionally paired
`find_string` / `replace_string` values. -/
structure RuleSet where
  find_replace : List (List Char × List Char) := []
  strip : List String := []
  strip_id_or_class : List String := []
  strip_image_src : List String := []
  date : List String := []
  title : List String := []
  footnotes : List String := []
  author : List String := []
  body : List String := []
  lxml_clean : Bool := true
  prune : Bool := true
deriving Repr, DecidableEq

/-- Modelled from the spec: emptiness of a rule set (Python's `not d` on the
directive dictionary).  Per the spec invariant, a rule set with zero
list-type values and no explicit false flag is "empty". -/
def RuleSet.isEmpty (r : RuleSet) : Bool :=
  r.find_replace.isEmpty && r.strip.isEmpty && r.strip_id_or_class.isEmpty &&
  r.strip_image_src.isEmpty && r.date.isEmpty && r.title.isEmpty &&
  r.footnotes.isEmpty && r.author.isEmpty && r.body.isEmpty &&
  r.lxml_clean && r.prune

/-- Failure modes of `load_sitespec` (file reading plus `load_rules`):
`ioError` is Python's `IOError` (missing file or OS-level read failure);
`otherError` is an exception of any other class raised while reading or
loading (for example a decoding error from the text-mode file reader). -/
inductive PyExc where
  | ioError : PyExc
  | otherError : String → PyExc
deriving Repr, DecidableEq

/-- Embedding of `load_superdomains` from `cascade.py`.  The store lookup
(`load_sitespec`) is a parameter `load`; the `try/except IOError` of the
source catches exactly `PyExc.ioError`, replacing the result with an empty
rule set, while any other exception propagates.  If the (possibly defaulted)
rule set is empty, the walk recurses on the part of the hostname after the
first dot, and returns `none` when no dot remains. -/
def load_superdomains (load : List Char → Except PyExc RuleSet)
    (hostname : List Char) : Except PyExc (Option RuleSet) :=
  let d : Except PyExc RuleSet :=
    match load hostname with
    | Except.error PyExc.ioError => Except.ok {}
    | r => r
  match d with
  | Except.error e => Except.error e
  | Except.ok rs =>
    if rs.isEmpty then
      if (afterFirstDot hostname).isEmpty then Except.ok none
      else load_superdomains load (afterFirstDot hostname)
    else Except.ok (some rs)
termination_by hostname.length
decreasing_by
  have hle : ∀ l : List Char, (afterFirstDot l).length ≤ l.length := by
    intro l
    induction l with
    | nil => simp [afterFirstDot]
    | cons c cs ih =>
      simp only [afterFirstDot]
      split
      · simp
      · exact Nat.le_succ_of_le ih
  rename_i hne
  cases hostname with
  | nil => simp [afterFirstDot] at hne
  | cons c cs =>
    simp only [afterFirstDot]
    split
    · simp
    · exact Nat.lt_succ_of_le (hle cs)

/-- The superdomain chain of a hostname: the hostname followed by the chains
of its successive superdomains, stopping when no dot remains. -/
def superdomainChain (hostname : List Char) : List (List Char) :=
  hostname ::
    (if (afterFirstDot hostname).isEmpty then []
     else superdomainChain (afterFirstDot hostname))
termination_by hostname.length
decreasing_by
  have hle : ∀ l : List Char, (afterFirstDot l).length ≤ l.length := by
    intro l
    induction l with
    | nil => simp [afterFirstDot]
    | cons c cs ih =>
      simp only [afterFirstDot]
      split
      · simp
      · exact Nat.le_succ_of_le ih
  rename_i hne
  cases hostname with
  | nil => simp [afterFirstDot] at hne
  | cons c cs =>
    simp only [afterFirstDot]
    split
    · simp
    · exact Nat.lt_succ_of_le (hle cs)

/-- Spec-side description of the resolver: scan the superdomain chain, most
specific (longest) suffix first, and return the first rule set that loads and
is non-empty. -/
def resolveSpec (store : List Char → Option RuleSet) (hostname : List Char) :
    Option RuleSet :=
  (superdomainChain hostname).findSome? fun s =>
    match store s with
    | none => none
    | some rs => if rs.isEmpty then none else some rs

/-- A store that either finds a rule-set file or fails with `IOError`,
packaged as a `load_sitespec`-shaped function. -/
def storeLoad (store : List Char → Option RuleSet) (s : List Char) :
    Except PyExc RuleSet :=
  match store s with
  | none => Except.error PyExc.ioError
  | some rs => Except.ok rs

/-- A concrete non-empty rule set used as fixture in counterexamples. -/
def comRules : RuleSet := { strip := ["//div"] }

/-- A concrete store in which loading the file for `a.com` fails with an
exception that is not an `IOError`, while `com` has a valid non-empty rule
set. -/
def badLoad : List Char → Except PyExc RuleSet := fun s =>
  if s = ['a', '.', 'c', 'o', 'm'] then
    Except.error (PyExc.otherError "bad bytes")
  else if s = ['c', 'o', 'm'] then Except.ok comRules
  else Except.error PyExc.ioError

/-- Lookup in a Python dictionary embedded as an ordered association list. -/
def dictGet (d : List (String × String)) (k : String) : Option String :=
  (d.find? (fun p => p.1 == k)).map (fun p => p.2)

/-- Assignment `d[k] = v` in a Python dictionary embedded as an ordered
association list: an existing key keeps its position, a new key is appended. -/
def dictSet (d : List (String × String)) (k v : String) :
    List (String × String) :=
  if d.any (fun p => p.1 == k) then
    d.map (fun p => if p.1 == k then (k, v) else p)
  else d ++ [(k, v)]

/-- The merge loop of `scraper_cascade` (`cascade.py` lines 58-60): for every
key/value of the override result, overwrite the baseline entry exactly when
the value is truthy (for the string fields produced here: non-empty). -/
def mergeOverride (base ovr : List (String × String)) :
    List (String × String) :=
  ovr.foldl (fun r kv => if kv.2 ≠ "" then dictSet r kv.1 kv.2 else r) base

/-- One step of Python's `source.replace(find, replace)` for a non-empty
`find` pattern `f0 :: ftl`: scan left to right, and at each position where
the pattern is a prefix emit `repl` and resume after the matched occurrence
(the emitted replacement text is never rescanned). -/
def replaceGo (f0 : Char) (ftl : List Char) (repl : List Char) :
    List Char → List Char
  | [] => []
  | c :: cs =>
    if (f0 :: ftl).isPrefixOf (c :: cs) then
      repl ++ replaceGo f0 ftl repl (List.drop (ftl.length + 1) (c :: cs))
    else c :: replaceGo f0 ftl repl cs
termination_by l => l.length
decreasing_by
  · simp only [List.length_drop, List.length_cons]
    omega
  · simp only [List.length_cons]
    omega

/-- Python's `s.replace(find, repl)`: literal, non-overlapping, left-to-right
substring replacement.  An empty `find` inserts `repl` at every position,
matching Python's behaviour. -/
def pyReplace (s find repl : List Char) : List Char :=
  match find with
  | [] => repl ++ s.foldr (fun c acc => c :: repl ++ acc) []
  | f0 :: ftl => replaceGo f0 ftl repl s

/-- Embedding of `InstapaperScraper._find_replace`: fold the positionally
paired `(find, replace)` directives over the source text, each pair acting on
the text already produced by the previous pairs. -/
def findReplacePass (pairs : List (List Char × List Char))
    (source : List Char) : List Char :=
  pairs.foldl (fun acc fr => pyReplace acc fr.1 fr.2) source

/-- Element node of the parsed document, per the spec's data model: tag,
ordered attributes, own text content, ordered children.  (The external lxml
tree also carries tail text; the spec's ParsedDocument does not, and none of
the verified claims depend on it.) -/
inductive Elem where
  | mk : String → List (String × String) → String → List Elem → Elem
deriving Repr

def Elem.tag : Elem → String
  | .mk t _ _ _ => t

def Elem.attrs : Elem → List (String × String)
  | .mk _ a _ _ => a

def Elem.text : Elem → String
  | .mk _ _ s _ => s

def Elem.children : Elem → List Elem
  | .mk _ _ _ c => c

mutual

/-- lxml's `text_content()`: own text followed by the text content of the
children, in document order. -/
def textContent : Elem → String
  | .mk _ _ t cs => t ++ textContentList cs

def textContentList : List Elem → String
  | [] => ""
  | e :: es => textContent e ++ textContentList es

end

/-- Python's `s.strip()` on a character list: remove leading and trailing
whitespace. -/
def trimChars (l : List Char) : List Char :=
  ((l.dropWhile fun c => c.isWhitespace).reverse.dropWhile
    fun c => c.isWhitespace).reverse

/-- Python's `s.strip()`: remove leading and trailing whitespace. -/
def pyTrim (s : String) : String :=
  String.mk (trimChars s.toList)

/-- Number of characters of `s` matching the `nonspecial` regex
`[\w,\.]` of `_maybe_prune` (restricted to the ASCII fragment of `\w`,
which covers every string occurring in the claims). -/
def nonspecialCount (s : String) : Nat :=
  (s.toList.filter fun c => c.isAlphanum || c == '_' || c == ',' || c == '.').length

/-- Number of characters of `s` matching the `whitespace` regex `\s`. -/
def whitespaceCount (s : String) : Nat :=
  (s.toList.filter fun c => c.isWhitespace).length

/-- Claim-side count for a content leaf with raw text `t`: number of word
characters plus comma and period in the trimmed text. -/
def leafNonspecial (t : String) : Nat := nonspecialCount (pyTrim t)

/-- Claim-side count: number of whitespace characters in the trimmed text. -/
def leafWhitespace (t : String) : Nat := whitespaceCount (pyTrim t)

/-- Claim-side count: total length of the trimmed text minus whitespace
minus nonspecial. -/
def leafSpecial (t : String) : Nat :=
  (pyTrim t).length - leafWhitespace t - leafNonspecial t

/-- Claim-side pruning condition for a childless leaf: the tag is not the
line-break tag and either there are no countable characters at all or the
special fraction strictly exceeds the threshold. -/
def leafPrunedSpec (limit : ℚ) (tag : String) (t : String) : Prop :=
  tag ≠ "br" ∧ (leafSpecial t + leafNonspecial t = 0 ∨
    ((leafSpecial t : ℚ) /
        ((leafSpecial t : ℚ) + (leafNonspecial t : ℚ)) > limit))

mutual

/-- The recursive `prune_element` helper of `InstapaperScraper._maybe_prune`:
children are pruned first; a node that keeps at least one child is returned
unchanged apart from its pruned children; otherwise the density counts are
computed over the node's trimmed text content and the node is dropped
(`none`) iff its tag is not "br" and the special-character fraction exceeds
`limit` (with the all-empty case `sc + nsc = 0` also dropped). -/
def pruneElement (limit : ℚ) : Elem → Option Elem
  | .mk tag a t cs =>
    let cs' := pruneList limit cs
    if cs'.length > 0 then some (.mk tag a t cs')
    else
      let content := pyTrim (textContent (.mk tag a t cs'))
      let nsc := nonspecialCount content
      let wc := whitespaceCount content
      let sc := content.length - wc - nsc
      if tag ≠ "br" ∧ (sc + nsc = 0 ∨ ((sc : ℚ) / ((sc : ℚ) + (nsc : ℚ)) > limit)) then
        none
      else some (.mk tag a t cs')

def pruneList (limit : ℚ) : List Elem → List Elem
  | [] => []
  | e :: es =>
    match pruneElement limit e with
    | none => pruneList limit es
    | some e' => e' :: pruneList limit es

end

/-- Embedding of `InstapaperScraper._maybe_prune`: when the `prune` flag of
the rule set is not false, prune each child of the body root (the root itself
is never dropped); the default `special_limit` is 0.5. -/
def maybePrune (rs : RuleSet) (body : Elem) : Elem :=
  if rs.prune then
    match body with
    | .mk tag a t cs => .mk tag a t (pruneList ((1 : ℚ) / 2) cs)
  else body

mutual

/-- Net effect of `_drop_by_xpath` with a match predicate `p`: every node of
the tree below the root whose original form satisfies `p` is dropped together
with its subtree.  (`etree.xpath` collects its matches on the tree as it is
when the pass starts, so `p` is evaluated on the original nodes.) -/
def dropWhere (p : Elem → Bool) : Elem → Elem
  | .mk tag a t cs => .mk tag a t (dropWhereList p cs)

def dropWhereList (p : Elem → Bool) : List Elem → List Elem
  | [] => []
  | e :: es =>
    if p e then dropWhereList p es
    else dropWhere p e :: dropWhereList p es

end

/-- Embedding of `InstapaperScraper._strip_nodes`: one `_drop_by_xpath` pass
per configured `strip` directive.  The external XPath engine is abstracted:
each configured expression is represented by the match predicate it denotes. -/
def stripNodesPass (preds : List (Elem → Bool)) (body : Elem) : Elem :=
  preds.foldl (fun b p => dropWhere p b) body

/-- Python's `s.strip(" \"'")`: remove leading and trailing spaces, double
quotes and single quotes. -/
def pyStripQuotes (s : String) : String :=
  let cut : List Char := [' ', '"', Char.ofNat 39]
  String.mk (((s.toList.dropWhile fun c => cut.contains c).reverse.dropWhile
    fun c => cut.contains c).reverse)

/-- XPath attribute access `string(@name)`: the attribute's value, or the
empty string when the attribute is absent. -/
def attrValue (e : Elem) (name : String) : String :=
  ((e.attrs.find? fun p => p.1 == name).map (fun p => p.2)).getD ""

/-- Python/XPath substring containment `contains(hay, needle)`. -/
def containsSubstr (hay needle : String) : Bool :=
  isInfixB needle.toList hay.toList

/-- Match predicate of the XPath built by `_strip_id_or_class`:
`//*[contains(@class,"v")] | //*[contains(@id,"v")]`. -/
def matchesIdOrClass (v : String) (e : Elem) : Bool :=
  containsSubstr (attrValue e "class") v || containsSubstr (attrValue e "id") v

/-- Embedding of `InstapaperScraper._strip_id_or_class`: one drop pass per
configured value, the value having its surrounding quotes stripped first. -/
def stripIdOrClassPass (vals : List String) (body : Elem) : Elem :=
  vals.foldl (fun b v => dropWhere (matchesIdOrClass (pyStripQuotes v)) b) body

/-- Match predicate of the XPath built by `_strip_image_src`:
`//img[contains(@src,"v")]`. -/
def matchesImgSrc (v : String) (e : Elem) : Bool :=
  e.tag == "img" && containsSubstr (attrValue e "src") v

/-- Embedding of `InstapaperScraper._strip_image_src`. -/
def stripImageSrcPass (vals : List String) (body : Elem) : Elem :=
  vals.foldl (fun b v => dropWhere (matchesImgSrc (pyStripQuotes v)) b) body

/-- The four body-mutating passes of `clean_article` (lines 54-57), in source
order: `_strip_nodes`, `_strip_id_or_class`, `_strip_image_src`,
`_maybe_prune`. -/
def bodyPasses (stripPreds : List (Elem → Bool)) (rs : RuleSet)
    (body : Elem) : Elem :=
  maybePrune rs
    (stripImageSrcPass rs.strip_image_src
      (stripIdOrClassPass rs.strip_id_or_class
        (stripNodesPass stripPreds body)))

mutual

/-- Decides whether `out` is obtained from `inp` purely by deleting whole
subtrees: the roots agree on tag, attributes and own text, and the surviving
children appear in their original relative order, each itself an erasure of
the corresponding original child. -/
def erasesB : Elem → Elem → Bool
  | .mk tag a t cs, .mk tag2 a2 t2 cs2 =>
    tag == tag2 && a == a2 && t == t2 && erasesListB cs cs2

def erasesListB : List Elem → List Elem → Bool
  | [], [] => true
  | [], _ :: es => erasesListB [] es
  | _ :: _, [] => false
  | e' :: es', e :: es =>
    (erasesB e' e && erasesListB es' es) || erasesListB (e' :: es') es

end

mutual

/-- All element nodes of a tree (the root and, recursively, those of the
children), in document order. -/
def elemsIn : Elem → List Elem
  | .mk tag a t cs => .mk tag a t cs :: elemsInList cs

def elemsInList : List Elem → List Elem
  | [] => []
  | e :: es => elemsIn e ++ elemsInList es

end

/-- Shallow equality of two element nodes: same tag, attributes and own text
(children ignored). -/
def shellEq : Elem → Elem → Bool
  | .mk tag a t _, .mk tag2 a2 t2 _ => tag == tag2 && a == a2 && t == t2

/-- A concrete body used in the `strip_id_or_class` regression example: a div
holding a paragraph whose class is "notclass1" and a plain paragraph. -/
def exBody : Elem :=
  Elem.mk "div" [] ""
    [Elem.mk "p" [("class", "notclass1")] "ads" [],
     Elem.mk "p" [] "keep" []]

/-- Status field of a test-runner report (`sitespec.py`). -/
inductive RunStatus where
  | ok : RunStatus
  | exception : RunStatus
deriving Repr, DecidableEq

/-- The dictionary returned by `TestCase.run`. -/
structure RunReport where
  url : String
  status : RunStatus
  message : Option String := none
  missing_fragments : Option (List String) := none
deriving Repr, DecidableEq

/-- Embedding of `TestCase.missing_fragments`: the expected fragments that do
not occur in the output text. -/
def missingFragmentsOf (fragments : List String) (text : String) :
    List String :=
  fragments.filter fun s => !(containsSubstr text s)

/-- Embedding of `TestCase.run`.  The external fetch-and-extract call
`clean_content(self.url)["plaintext"]` is abstracted as `outcome`: either the
resulting plaintext, or `Except.error m` when an exception with text `m` was
raised.  Note that in the exception branch the source returns the literal
string "e.message" as the report's message (the quotes around `e.message` in
the source make it a string literal); the captured error text is only written
to stderr. -/
def testCaseRun (url : String) (fragments : List String)
    (outcome : Except String String) : RunReport :=
  match outcome with
  | Except.error _ =>
    { url := url, status := RunStatus.exception, message := some "e.message" }
  | Except.ok plaintext =>
    { url := url, status := RunStatus.ok,
      missing_fragments := some (missingFragmentsOf fragments plaintext) }

theorem afterFirstDot_length_le (l : List Char) :
    (afterFirstDot l).length ≤ l.length := by
  induction l with
  | nil => simp [afterFirstDot]
  | cons c cs ih =>
    simp only [afterFirstDot]
    split
    · simp
    · exact Nat.le_succ_of_le ih

theorem afterFirstDot_length_lt (l : List Char) (h : l ≠ []) :
    (afterFirstDot l).length < l.length := by
  cases l with
  | nil => exact absurd rfl h
  | cons c cs =>
    simp only [afterFirstDot]
    split
    · simp
    · exact Nat.lt_succ_of_le (afterFirstDot_length_le cs)

/-- C1: `load_superdomains` over an `IOError`-or-result store agrees with the
spec-side resolver `resolveSpec`, which returns the rule set of the longest
(most specific) hostname suffix in the superdomain chain whose lookup yields
a non-empty rule set, and `none` when every suffix yields `NotFound` or an
empty rule set. -/
theorem load_superdomains_resolves (store : List Char → Option RuleSet)
    (hostname : List Char) :
    load_superdomains (storeLoad store) hostname =
      Except.ok (resolveSpec store hostname) := by
  have hrec : ¬ (afterFirstDot hostname).isEmpty = true →
      load_superdomains (storeLoad store) (afterFirstDot hostname) =
        Except.ok (resolveSpec store (afterFirstDot hostname)) := fun _ =>
    load_superdomains_resolves store (afterFirstDot hostname)
  rw [load_superdomains, resolveSpec, superdomainChain]
  cases hst : store hostname with
  | none =>
    simp only [storeLoad, hst, List.findSome?_cons]
    have hempty : (({} : RuleSet)).isEmpty = true := rfl
    simp only [hempty, if_true]
    split
    · simp_all
    · rename_i hne
      rw [hrec hne, resolveSpec]
  | some rs =>
    simp only [storeLoad, hst, List.findSome?_cons]
    by_cases hrs : rs.isEmpty = true
    · simp only [hrs, if_true]
      split
      · simp_all
      · rename_i hne
        rw [hrec hne, resolveSpec]
    · simp only [hrs]
      simp_all
termination_by hostname.length
decreasing_by
  rename_i hne
  have hl : hostname ≠ [] := by
    intro h
    subst h
    simp [afterFirstDot] at hne
  exact afterFirstDot_length_lt hostname hl

theorem load_superdomains_allMissing (load : List Char → Except PyExc RuleSet)
    (hall : ∀ s, load s = Except.error PyExc.ioError) (hostname : List Char) :
    load_superdomains load hostname = Except.ok none := by
  rw [load_superdomains]
  simp only [hall hostname]
  have hempty : (({} : RuleSet)).isEmpty = true := rfl
  simp only [hempty, if_true]
  split
  · rfl
  · exact load_superdomains_allMissing load hall (afterFirstDot hostname)
termination_by hostname.length
decreasing_by
  rename_i hne
  have hl : hostname ≠ [] := by
    intro h
    subst h
    simp [afterFirstDot] at hne
  exact afterFirstDot_length_lt hostname hl

/-- C9: the superdomain walk terminates on every hostname string, malformed
ones included: each recursive call of `load_superdomains` acts on the
remainder after the first dot, which is strictly shorter, and when no rule
set is found at any level the walk ends with `none`. -/
theorem superdomain_walk_terminates (hostname : List Char)
    (h : hostname ≠ []) :
    (afterFirstDot hostname).length < hostname.length ∧
      ∀ load : List Char → Except PyExc RuleSet,
        (∀ s, load s = Except.error PyExc.ioError) →
        load_superdomains load hostname = Except.ok none :=
  ⟨afterFirstDot_length_lt hostname h,
   fun load hall => load_superdomains_allMissing load hall hostname⟩

theorem superdomain_walk_terminates_witness :
    (afterFirstDot ['a', '.', 'b']).length <
        (['a', '.', 'b'] : List Char).length ∧
      load_superdomains (fun _ => Except.error PyExc.ioError) ['a', '.', 'b'] =
        Except.ok none :=
  ⟨(superdomain_walk_terminates ['a', '.', 'b'] (by decide)).1,
   (superdomain_walk_terminates ['a', '.', 'b'] (by decide)).2
     (fun _ => Except.error PyExc.ioError) (fun _ => rfl)⟩

/-- C5 counterexample: loading the rule-set file for "a.com" fails with an
exception that is not an `IOError`; `load_superdomains` propagates that
failure to the caller instead of treating it like NotFound, even though the
superdomain "com" (second conjunct) has a loadable, non-empty rule set. -/
theorem load_superdomains_propagates_other_error :
    load_superdomains badLoad ['a', '.', 'c', 'o', 'm'] =
        Except.error (PyExc.otherError "bad bytes") ∧
      load_superdomains badLoad ['c', 'o', 'm'] = Except.ok (some comRules) := by
  constructor
  · rw [load_superdomains]
    simp [badLoad]
  · rw [load_superdomains]
    simp [badLoad, comRules, RuleSet.isEmpty]

/-- C5 (amended): an `IOError` raised while loading a key's rule-set file
(missing file or OS-level read failure) is treated exactly like NotFound and
the superdomain walk continues (ending with `none` when no dot remains), but
an exception of any other class raised while loading is not caught: it
propagates to the caller. -/
theorem load_superdomains_ioError_not_fatal :
    (∀ (load : List Char → Except PyExc RuleSet) (hostname : List Char),
        load hostname = Except.error PyExc.ioError →
        load_superdomains load hostname =
          if (afterFirstDot hostname).isEmpty then Except.ok none
          else load_superdomains load (afterFirstDot hostname)) ∧
    (∀ (load : List Char → Except PyExc RuleSet) (hostname : List Char)
        (m : String),
        load hostname = Except.error (PyExc.otherError m) →
        load_superdomains load hostname = Except.error (PyExc.otherError m)) := by
  constructor
  · intro load hostname hio
    rw [load_superdomains]
    simp only [hio]
    have hempty : (({} : RuleSet)).isEmpty = true := rfl
    simp only [hempty, if_true]
  · intro load hostname m hm
    rw [load_superdomains]
    simp [hm]

theorem load_superdomains_ioError_not_fatal_witness :
    (load_superdomains badLoad ['x', '.', 'a', '.', 'c', 'o', 'm'] =
        if (afterFirstDot ['x', '.', 'a', '.', 'c', 'o', 'm']).isEmpty then
          Except.ok none
        else load_superdomains badLoad
          (afterFirstDot ['x', '.', 'a', '.', 'c', 'o', 'm'])) ∧
      load_superdomains badLoad ['a', '.', 'c', 'o', 'm'] =
        Except.error (PyExc.otherError "bad bytes") :=
  ⟨load_superdomains_ioError_not_fatal.1 badLoad ['x', '.', 'a', '.', 'c', 'o', 'm']
      (by simp [badLoad]),
   load_superdomains_ioError_not_fatal.2 badLoad ['a', '.', 'c', 'o', 'm']
      "bad bytes" (by simp [badLoad])⟩

theorem find?_map_set (d : List (String × String)) (k v : String) :
    List.find? (fun p => p.1 == k)
        (d.map fun p => if p.1 == k then (k, v) else p) =
      if d.any (fun p => p.1 == k) then some (k, v) else none := by
  induction d with
  | nil => simp
  | cons p rest ih =>
    by_cases hp : (p.1 == k) = true
    · simp [List.find?, hp, -List.find?_map]
    · rw [Bool.not_eq_true] at hp
      simp [List.find?, hp, -List.find?_map]
      rw [hp, Bool.false_or]
      simpa using ih

theorem find?_map_set_ne (d : List (String × String)) (k v k' : String)
    (hne : k' ≠ k) :
    List.find? (fun p => p.1 == k')
        (d.map fun p => if p.1 == k then (k, v) else p) =
      List.find? (fun p => p.1 == k') d := by
  induction d with
  | nil => simp
  | cons p rest ih =>
    by_cases hp : (p.1 == k) = true
    · have hpk : p.1 = k := by simpa using hp
      have h1 : (k == k') = false := by
        rw [beq_eq_false_iff_ne]
        exact fun h => hne h.symm
      simpa [List.find?, hp, hpk, h1, -List.find?_map] using ih
    · cases hq : (p.1 == k') with
      | true => simp [List.find?, hp, hq, -List.find?_map]
      | false => simpa [List.find?, hp, hq, -List.find?_map] using ih

theorem dictGet_not_mem (d : List (String × String)) (k : String)
    (h : k ∉ d.map Prod.fst) : dictGet d k = none := by
  induction d with
  | nil => simp [dictGet]
  | cons p rest ih =>
    simp only [List.map_cons, List.mem_cons, not_or] at h
    have hp : (p.1 == k) = false := by
      simp
      exact fun he => h.1 he.symm
    simp only [dictGet, List.find?_cons, hp]
    exact ih h.2

theorem dictGet_set_self (d : List (String × String)) (k v : String) :
    dictGet (dictSet d k v) k = some v := by
  unfold dictSet dictGet
  split
  · rename_i hany
    rw [find?_map_set]
    simp [hany]
  · rename_i hany
    rw [List.find?_append]
    have h1 : List.find? (fun p => p.1 == k) d = none := by
      rw [List.find?_eq_none]
      intro p hp
      simp only [Bool.not_eq_true]
      by_contra hc
      exact hany (List.any_eq_true.mpr ⟨p, hp, by simpa using hc⟩)
    simp [h1]

theorem dictGet_set_ne (d : List (String × String)) (k v k' : String)
    (hne : k' ≠ k) : dictGet (dictSet d k v) k' = dictGet d k' := by
  unfold dictSet dictGet
  split
  · rw [find?_map_set_ne d k v k' hne]
  · rw [List.find?_append]
    have hkk : ((k, v).1 == k') = false := by
      rw [beq_eq_false_iff_ne]
      exact fun h => hne h.symm
    have h2 : List.find? (fun p => p.1 == k') [(k, v)] = none := by
      simp [List.find?, hkk]
    cases hfd : List.find? (fun p => p.1 == k') d <;> simp [h2]

theorem dictGet_cons_self (k v : String) (d : List (String × String)) :
    dictGet ((k, v) :: d) k = some v := by
  simp [dictGet, List.find?]

theorem dictGet_cons_ne (k0 v0 k : String) (d : List (String × String))
    (h : (k0 == k) = false) : dictGet ((k0, v0) :: d) k = dictGet d k := by
  simp [dictGet, List.find?, h]

/-- C2: for every baseline and override result, the cascade merge loop
replaces a baseline field exactly when the override's value for that field is
non-empty (Python truthiness for the string-valued fields involved); every
field whose override value is empty keeps its baseline value (and is not
created when the baseline lacks it).  Override dictionaries have pairwise
distinct keys, as Python dictionary iteration guarantees. -/
theorem mergeOverride_spec (base ovr : List (String × String))
    (hnodup : (ovr.map Prod.fst).Nodup) (k : String) :
    dictGet (mergeOverride base ovr) k =
      match dictGet ovr k with
      | some v => if v ≠ "" then some v else dictGet base k
      | none => dictGet base k := by
  induction ovr generalizing base with
  | nil => simp [mergeOverride, dictGet]
  | cons kv rest ih =>
    obtain ⟨k0, v0⟩ := kv
    simp only [List.map_cons, List.nodup_cons] at hnodup
    obtain ⟨hk0, hrest⟩ := hnodup
    have hstep : mergeOverride base ((k0, v0) :: rest) =
        mergeOverride (if v0 ≠ "" then dictSet base k0 v0 else base) rest := rfl
    rw [hstep, ih _ hrest]
    by_cases hq : (k0 == k) = true
    · have hk : k0 = k := by simpa using hq
      subst hk
      have hnone : dictGet rest k0 = none := dictGet_not_mem rest k0 hk0
      rw [hnone, dictGet_cons_self]
      show dictGet (if v0 ≠ "" then dictSet base k0 v0 else base) k0 =
        if v0 ≠ "" then some v0 else dictGet base k0
      by_cases hv : v0 = ""
      · simp [hv]
      · simp only [ne_eq, hv, not_false_eq_true, ite_true]
        exact dictGet_set_self base k0 v0
    · have hkne : k ≠ k0 := by
        intro h
        subst h
        simp at hq
      have hqf : (k0 == k) = false := by
        cases hcc : (k0 == k)
        · rfl
        · exact absurd hcc hq
      rw [dictGet_cons_ne k0 v0 k rest hqf]
      have hbase : dictGet (if v0 ≠ "" then dictSet base k0 v0 else base) k =
          dictGet base k := by
        split
        · exact dictGet_set_ne base k0 v0 k hkne
        · rfl
      rw [hbase]

theorem mergeOverride_spec_witness :
    dictGet (mergeOverride [("title", "A"), ("html", "<p>x</p>")]
        [("title", ""), ("html", "<p>y</p>")]) "title" = some "A" ∧
      dictGet (mergeOverride [("title", "A"), ("html", "<p>x</p>")]
        [("title", ""), ("html", "<p>y</p>")]) "html" = some "<p>y</p>" := by
  have h1 := mergeOverride_spec [("title", "A"), ("html", "<p>x</p>")]
    [("title", ""), ("html", "<p>y</p>")] (by decide) "title"
  have h2 := mergeOverride_spec [("title", "A"), ("html", "<p>x</p>")]
    [("title", ""), ("html", "<p>y</p>")] (by decide) "html"
  refine ⟨?_, ?_⟩
  · rw [h1]
    rfl
  · rw [h2]
    rfl

/-- C4: `TestCase.run` never propagates an extraction failure, but the
report it returns for a failure carries the literal string "e.message" (the
source quotes `e.message`, making it a string literal) instead of the
captured error text — here "boom" — which contradicts the claim; on success
it reports status OK with exactly the expected fragments that are absent
from the plaintext. -/
theorem testCaseRun_literal_message_bug :
    testCaseRun "http://example.com/a" [] (Except.error "boom") =
        { url := "http://example.com/a", status := RunStatus.exception,
          message := some "e.message" } ∧
      (some "e.message" : Option String) ≠ some "boom" ∧
      testCaseRun "u" ["alpha", "beta"] (Except.ok "xx alpha xx") =
        { url := "u", status := RunStatus.ok,
          missing_fragments := some ["beta"] } := by
  refine ⟨rfl, by decide, ?_⟩
  rfl

/-- C7: the find/replace phase is a single linear left-to-right pass per
(find, replace) pair, using literal substring replacement: an occurrence of
the pattern is replaced and scanning resumes after it, so the inserted
replacement text is never rescanned by the same pair (first conjunct); each
pair operates on the text already produced by the previous pairs (second
conjunct); and the regression case find "ab", replace "abab" on input "ab"
yields exactly "abab" (third conjunct). -/
theorem findReplace_single_pass :
    (∀ (f0 : Char) (ftl rest repl : List Char),
        pyReplace ((f0 :: ftl) ++ rest) (f0 :: ftl) repl =
          repl ++ pyReplace rest (f0 :: ftl) repl) ∧
      (∀ (fr : List Char × List Char) (pairs : List (List Char × List Char))
          (source : List Char),
          findReplacePass (fr :: pairs) source =
            findReplacePass pairs (pyReplace source fr.1 fr.2)) ∧
      findReplacePass [(['a', 'b'], ['a', 'b', 'a', 'b'])] ['a', 'b'] =
        ['a', 'b', 'a', 'b'] := by
  refine ⟨?_, ?_, ?_⟩
  · intro f0 ftl rest repl
    show replaceGo f0 ftl repl (f0 :: (ftl ++ rest)) =
      repl ++ replaceGo f0 ftl repl rest
    rw [replaceGo]
    have hpre : (f0 :: ftl).isPrefixOf (f0 :: (ftl ++ rest)) = true := by
      rw [List.isPrefixOf_iff_prefix]
      exact List.prefix_append (f0 :: ftl) rest
    rw [if_pos hpre]
    have hdrop : List.drop (ftl.length + 1) (f0 :: (ftl ++ rest)) = rest := by
      rw [List.drop_succ_cons]
      exact List.drop_left ftl rest
    rw [hdrop]
  · intro fr pairs source
    rfl
  · simp [findReplacePass, pyReplace, replaceGo]

theorem pruneElement_keep (limit : ℚ) (tag : String)
    (a : List (String × String)) (t : String) (cs : List Elem)
    (hne : pruneList limit cs ≠ []) :
    pruneElement limit (Elem.mk tag a t cs) =
      some (Elem.mk tag a t (pruneList limit cs)) := by
  have hpos : (pruneList limit cs).length > 0 := List.length_pos.mpr hne
  simp only [pruneElement]
  rw [if_pos hpos]

theorem pruneElement_leaf_eq (limit : ℚ) (tag : String)
    (a : List (String × String)) (t : String) (cs : List Elem)
    (h0 : pruneList limit cs = []) :
    pruneElement limit (Elem.mk tag a t cs) =
      if tag ≠ "br" ∧ (leafSpecial t + leafNonspecial t = 0 ∨
          ((leafSpecial t : ℚ) /
            ((leafSpecial t : ℚ) + (leafNonspecial t : ℚ)) > limit))
      then none else some (Elem.mk tag a t []) := by
  simp only [pruneElement, h0, List.length_nil, gt_iff_lt, Nat.lt_irrefl,
    if_false, textContent, textContentList, String.append_empty,
    leafSpecial, leafWhitespace, leafNonspecial]

/-- C3: characterisation of the `prune_element` recursion of
`_maybe_prune`.  First conjunct: a node that retains at least one child
after its children are pruned is kept, with its own text never inspected
(the result is the same for every `t`).  Second conjunct: a node left
childless is deleted exactly when its tag is not the line-break tag and
either `special + nonspecial = 0` or `special / (special + nonspecial)`
strictly exceeds the threshold, with the counts computed from the trimmed
text as the claim states.  Third conjunct: the comparison is strict, so at
the default threshold 0.5 a leaf whose special and nonspecial counts are
equal (and non-zero) sits exactly at the threshold and is kept. -/
theorem pruneElement_characterisation :
    (∀ (limit : ℚ) (tag : String) (a : List (String × String)) (t : String)
        (cs : List Elem), pruneList limit cs ≠ [] →
        pruneElement limit (Elem.mk tag a t cs) =
          some (Elem.mk tag a t (pruneList limit cs))) ∧
      (∀ (limit : ℚ) (tag : String) (a : List (String × String)) (t : String)
          (cs : List Elem), pruneList limit cs = [] →
          (pruneElement limit (Elem.mk tag a t cs) = none ↔
            leafPrunedSpec limit tag t)) ∧
      (∀ (tag : String) (a : List (String × String)) (t : String)
          (cs : List Elem), pruneList ((1 : ℚ) / 2) cs = [] →
          leafSpecial t = leafNonspecial t → leafSpecial t ≠ 0 →
          pruneElement ((1 : ℚ) / 2) (Elem.mk tag a t cs) =
            some (Elem.mk tag a t [])) := by
  refine ⟨pruneElement_keep, ?_, ?_⟩
  · intro limit tag a t cs h0
    rw [pruneElement_leaf_eq limit tag a t cs h0]
    unfold leafPrunedSpec
    split
    · rename_i hc
      simp only [true_iff, iff_true]
      obtain ⟨hbr, hc2⟩ := hc
      refine ⟨hbr, ?_⟩
      exact hc2
    · rename_i hc
      simp only [reduceCtorEq, false_iff]
      exact hc
  · intro tag a t cs h0 heq hne
    rw [pruneElement_leaf_eq _ tag a t cs h0, if_neg]
    rintro ⟨hbr, hcase⟩
    rcases hcase with h | h
    · omega
    · rw [← heq] at h
      have hs : (leafSpecial t : ℚ) ≠ 0 := Nat.cast_ne_zero.mpr hne
      have hhalf : (leafSpecial t : ℚ) /
          ((leafSpecial t : ℚ) + (leafSpecial t : ℚ)) = 1 / 2 := by
        field_simp
        ring
      rw [hhalf] at h
      exact lt_irrefl _ h

theorem pruneElement_characterisation_witness :
    pruneElement ((1 : ℚ) / 2)
        (Elem.mk "div" [] "zz" [Elem.mk "p" [] "hello" []]) =
      some (Elem.mk "div" [] "zz" [Elem.mk "p" [] "hello" []]) ∧
      pruneElement ((1 : ℚ) / 2) (Elem.mk "p" [] "%%" []) = none ∧
      pruneElement ((1 : ℚ) / 2) (Elem.mk "p" [] "%." []) =
        some (Elem.mk "p" [] "%." []) := by
  have hlist : pruneList ((1 : ℚ) / 2) [Elem.mk "p" [] "hello" []] =
      [Elem.mk "p" [] "hello" []] := by
    have hl : "hello".length = 5 := rfl
    simp [pruneList, pruneElement, textContent, textContentList,
      nonspecialCount, whitespaceCount, pyTrim, trimChars, hl]
    norm_num
  refine ⟨?_, ?_, ?_⟩
  · have h := pruneElement_characterisation.1 ((1 : ℚ) / 2) "div" [] "zz"
      [Elem.mk "p" [] "hello" []] (by rw [hlist]; simp)
    rw [h, hlist]
  · have h := pruneElement_characterisation.2.1 ((1 : ℚ) / 2) "p" [] "%%" []
      (by simp [pruneList])
    refine h.mpr ⟨by decide, Or.inr ?_⟩
    have h1 : leafSpecial "%%" = 2 := rfl
    have h2 : leafNonspecial "%%" = 0 := rfl
    rw [h1, h2]
    norm_num
  · refine pruneElement_characterisation.2.2 "p" [] "%." []
      (by simp [pruneList]) ?_ ?_
    · rfl
    · intro h
      exact absurd h (by decide)

mutual

theorem erasesB_refl : ∀ e : Elem, erasesB e e = true
  | .mk tag a t cs => by
    simp only [erasesB, beq_self_eq_true, Bool.true_and]
    exact erasesListB_refl cs

theorem erasesListB_refl : ∀ cs : List Elem, erasesListB cs cs = true
  | [] => rfl
  | e :: es => by
    simp only [erasesListB, Bool.or_eq_true, Bool.and_eq_true]
    exact Or.inl ⟨erasesB_refl e, erasesListB_refl es⟩

end

theorem erasesListB_drop (z : Elem) :
    ∀ xs zs : List Elem, erasesListB xs zs = true →
      erasesListB xs (z :: zs) = true
  | [], zs, h => by
    simp only [erasesListB]
    exact h
  | x :: xs', zs, h => by
    simp only [erasesListB, Bool.or_eq_true]
    exact Or.inr h

mutual

theorem erasesB_trans : ∀ c b a : Elem, erasesB c b = true →
    erasesB b a = true → erasesB c a = true
  | .mk t3 a3 s3 cs3, .mk t2 a2 s2 cs2, .mk t1 a1 s1 cs1 => by
    simp only [erasesB, Bool.and_eq_true, beq_iff_eq]
    rintro ⟨⟨⟨h1, h2⟩, h3⟩, h4⟩ ⟨⟨⟨g1, g2⟩, g3⟩, g4⟩
    exact ⟨⟨⟨h1.trans g1, h2.trans g2⟩, h3.trans g3⟩,
      erasesListB_trans cs3 cs2 cs1 h4 g4⟩
termination_by c b a => sizeOf a

theorem erasesListB_trans : ∀ xs ys zs : List Elem,
    erasesListB xs ys = true → erasesListB ys zs = true →
    erasesListB xs zs = true
  | xs, ys, [] => by
    intro hxy hyz
    cases ys with
    | nil =>
      cases xs with
      | nil => exact hxy
      | cons x xs' => exact absurd hxy (by simp [erasesListB])
    | cons y ys' => exact absurd hyz (by simp [erasesListB])
  | xs, ys, z :: zs => by
    intro hxy hyz
    cases ys with
    | nil =>
      cases xs with
      | nil => exact hyz
      | cons x xs' => exact absurd hxy (by simp [erasesListB])
    | cons y ys' =>
      simp only [erasesListB, Bool.or_eq_true, Bool.and_eq_true] at hyz
      rcases hyz with ⟨hyz1, hyz2⟩ | hyz'
      · cases xs with
        | nil =>
          simp only [erasesListB] at hxy ⊢
          exact erasesListB_trans [] ys' zs hxy hyz2
        | cons x xs' =>
          simp only [erasesListB, Bool.or_eq_true, Bool.and_eq_true] at hxy ⊢
          rcases hxy with ⟨hx1, hx2⟩ | hx'
          · exact Or.inl ⟨erasesB_trans x y z hx1 hyz1,
              erasesListB_trans xs' ys' zs hx2 hyz2⟩
          · exact Or.inr (erasesListB_trans (x :: xs') ys' zs hx' hyz2)
      · exact erasesListB_drop z xs zs
          (erasesListB_trans xs (y :: ys') zs hxy hyz')
termination_by xs ys zs => sizeOf zs

end

mutual

theorem erasesB_dropWhere (p : Elem → Bool) :
    ∀ e : Elem, erasesB (dropWhere p e) e = true
  | .mk tag a t cs => by
    simp only [dropWhere, erasesB, beq_self_eq_true, Bool.true_and]
    exact erasesListB_dropWhereList p cs

theorem erasesListB_dropWhereList (p : Elem → Bool) :
    ∀ cs : List Elem, erasesListB (dropWhereList p cs) cs = true
  | [] => rfl
  | e :: es => by
    simp only [dropWhereList]
    by_cases hp : p e = true
    · rw [if_pos hp]
      exact erasesListB_drop e _ es (erasesListB_dropWhereList p es)
    · rw [if_neg hp]
      simp only [erasesListB, Bool.or_eq_true, Bool.and_eq_true]
      exact Or.inl ⟨erasesB_dropWhere p e, erasesListB_dropWhereList p es⟩

end

theorem pruneElement_shell (limit : ℚ) (tag : String)
    (a : List (String × String)) (t : String) (cs : List Elem) :
    pruneElement limit (Elem.mk tag a t cs) = none ∨
      pruneElement limit (Elem.mk tag a t cs) =
        some (Elem.mk tag a t (pruneList limit cs)) := by
  simp only [pruneElement]
  split
  · exact Or.inr rfl
  · split
    · exact Or.inl rfl
    · exact Or.inr rfl

mutual

theorem erasesB_pruneElement (limit : ℚ) :
    ∀ (e e' : Elem), pruneElement limit e = some e' → erasesB e' e = true
  | .mk tag a t cs, e', h => by
    rcases pruneElement_shell limit tag a t cs with h0 | h0
    · rw [h0] at h
      cases h
    · rw [h0] at h
      cases h
      simp only [erasesB, beq_self_eq_true, Bool.true_and]
      exact erasesListB_pruneList limit cs

theorem erasesListB_pruneList (limit : ℚ) :
    ∀ cs : List Elem, erasesListB (pruneList limit cs) cs = true
  | [] => rfl
  | e :: es => by
    cases hp : pruneElement limit e with
    | none =>
      simp only [pruneList, hp]
      exact erasesListB_drop e _ es (erasesListB_pruneList limit es)
    | some e' =>
      simp only [pruneList, hp]
      simp only [erasesListB, Bool.or_eq_true, Bool.and_eq_true]
      exact Or.inl ⟨erasesB_pruneElement limit e e' hp,
        erasesListB_pruneList limit es⟩

end

theorem erasesB_foldDrop {α : Type} (g : α → Elem → Bool) :
    ∀ (xs : List α) (b : Elem),
      erasesB (xs.foldl (fun t x => dropWhere (g x) t) b) b = true
  | [], b => erasesB_refl b
  | x :: xs, b => by
    simp only [List.foldl_cons]
    exact erasesB_trans _ _ _ (erasesB_foldDrop g xs (dropWhere (g x) b))
      (erasesB_dropWhere (g x) b)

theorem erasesB_maybePrune (rs : RuleSet) (b : Elem) :
    erasesB (maybePrune rs b) b = true := by
  unfold maybePrune
  split
  · obtain ⟨tag, a, t, cs⟩ := b
    simp only [erasesB, beq_self_eq_true, Bool.true_and]
    exact erasesListB_pruneList _ cs
  · exact erasesB_refl b

/-- C10: the four body-mutating passes of `clean_article` (`strip`,
`strip_id_or_class`, `strip_image_src`, `prune`) only delete whole subtrees:
the result tree is an erasure of the input — every surviving element keeps
its tag, its attributes, its own text, and its relative order among the
surviving siblings — for every choice of strip predicates and rule set. -/
theorem bodyPasses_only_deletes (stripPreds : List (Elem → Bool))
    (rs : RuleSet) (body : Elem) :
    erasesB (bodyPasses stripPreds rs body) body = true := by
  unfold bodyPasses stripNodesPass stripIdOrClassPass stripImageSrcPass
  refine erasesB_trans _ _ _ (erasesB_maybePrune rs _) ?_
  refine erasesB_trans _ _ _
    (erasesB_foldDrop (fun v => matchesImgSrc (pyStripQuotes v))
      rs.strip_image_src _) ?_
  refine erasesB_trans _ _ _
    (erasesB_foldDrop (fun v => matchesIdOrClass (pyStripQuotes v))
      rs.strip_id_or_class _) ?_
  exact erasesB_foldDrop (fun q => q) stripPreds body

theorem shellEq_refl (e : Elem) : shellEq e e = true := by
  obtain ⟨tag, a, t, cs⟩ := e
  simp [shellEq]

theorem shellEq_trans (x y z : Elem) (h1 : shellEq x y = true)
    (h2 : shellEq y z = true) : shellEq x z = true := by
  obtain ⟨t1, a1, s1, c1⟩ := x
  obtain ⟨t2, a2, s2, c2⟩ := y
  obtain ⟨t3, a3, s3, c3⟩ := z
  simp only [shellEq, Bool.and_eq_true, beq_iff_eq] at h1 h2 ⊢
  exact ⟨⟨h1.1.1.trans h2.1.1, h1.1.2.trans h2.1.2⟩, h1.2.trans h2.2⟩

theorem shellEq_dropWhere (p : Elem → Bool) (e : Elem) :
    shellEq (dropWhere p e) e = true := by
  obtain ⟨tag, a, t, cs⟩ := e
  simp [dropWhere, shellEq]

theorem matchesIdOrClass_shell (v : String) (x y : Elem)
    (h : shellEq x y = true) :
    matchesIdOrClass v x = matchesIdOrClass v y := by
  obtain ⟨t1, a1, s1, c1⟩ := x
  obtain ⟨t2, a2, s2, c2⟩ := y
  simp only [shellEq, Bool.and_eq_true, beq_iff_eq] at h
  simp [matchesIdOrClass, attrValue, Elem.attrs, h.1.2]

theorem children_dropWhere (p : Elem → Bool) (b : Elem) :
    (dropWhere p b).children = dropWhereList p b.children := by
  obtain ⟨tag, a, t, cs⟩ := b
  simp [dropWhere, Elem.children]

theorem self_mem_elemsIn (e : Elem) : e ∈ elemsIn e := by
  obtain ⟨tag, a, t, cs⟩ := e
  simp only [elemsIn]
  exact List.mem_cons_self _ _

theorem mem_elemsIn_of_mem_children (e e0 : Elem)
    (h : e0 ∈ elemsInList (Elem.children e)) : e0 ∈ elemsIn e := by
  obtain ⟨tag, a, t, cs⟩ := e
  simp only [Elem.children] at h
  simp only [elemsIn]
  exact List.mem_cons_of_mem _ h

theorem dropWhereList_no_match (p : Elem → Bool)
    (hp : ∀ x y, shellEq x y = true → p x = p y) :
    ∀ (cs : List Elem) (e' : Elem),
      e' ∈ elemsInList (dropWhereList p cs) → p e' = false
  | [], e', h => by simp [dropWhereList, elemsInList] at h
  | Elem.mk tag a t cs0 :: es, e', h => by
    by_cases hpe : p (Elem.mk tag a t cs0) = true
    · rw [dropWhereList, if_pos hpe] at h
      exact dropWhereList_no_match p hp es e' h
    · rw [dropWhereList, if_neg hpe] at h
      rw [elemsInList] at h
      rcases List.mem_append.mp h with hleft | hright
      · simp only [dropWhere, elemsIn] at hleft
        rcases List.mem_cons.mp hleft with hroot | hrest
        · rw [hroot]
          rw [hp (Elem.mk tag a t (dropWhereList p cs0))
            (Elem.mk tag a t cs0) (by simp [shellEq])]
          exact Bool.not_eq_true _ ▸ hpe
        · exact dropWhereList_no_match p hp cs0 e' hrest
      · exact dropWhereList_no_match p hp es e' hright
termination_by cs e' => sizeOf cs

theorem dropWhereList_shell_sub (p : Elem → Bool) :
    ∀ (cs : List Elem) (e' : Elem),
      e' ∈ elemsInList (dropWhereList p cs) →
      ∃ e, e ∈ elemsInList cs ∧ shellEq e' e = true
  | [], e', h => by simp [dropWhereList, elemsInList] at h
  | Elem.mk tag a t cs0 :: es, e', h => by
    have hlift : ∀ e0, e0 ∈ elemsInList es →
        e0 ∈ elemsInList (Elem.mk tag a t cs0 :: es) := by
      intro e0 h0
      rw [elemsInList]
      exact List.mem_append.mpr (Or.inr h0)
    by_cases hpe : p (Elem.mk tag a t cs0) = true
    · rw [dropWhereList, if_pos hpe] at h
      obtain ⟨e0, he0, hs0⟩ := dropWhereList_shell_sub p es e' h
      exact ⟨e0, hlift e0 he0, hs0⟩
    · rw [dropWhereList, if_neg hpe] at h
      rw [elemsInList] at h
      rcases List.mem_append.mp h with hleft | hright
      · simp only [dropWhere, elemsIn] at hleft
        rcases List.mem_cons.mp hleft with hroot | hrest
        · refine ⟨Elem.mk tag a t cs0, ?_, ?_⟩
          · rw [elemsInList]
            exact List.mem_append.mpr
              (Or.inl (self_mem_elemsIn (Elem.mk tag a t cs0)))
          · rw [hroot]
            simp [shellEq]
        · obtain ⟨e0, he0, hs0⟩ := dropWhereList_shell_sub p cs0 e' hrest
          refine ⟨e0, ?_, hs0⟩
          rw [elemsInList]
          refine List.mem_append.mpr (Or.inl ?_)
          exact mem_elemsIn_of_mem_children (Elem.mk tag a t cs0) e0 he0
      · obtain ⟨e0, he0, hs0⟩ := dropWhereList_shell_sub p es e' hright
        exact ⟨e0, hlift e0 he0, hs0⟩
termination_by cs e' => sizeOf cs

theorem stripIdOrClassPass_shell_sub :
    ∀ (vals : List String) (b : Elem) (e' : Elem),
      e' ∈ elemsInList (Elem.children (stripIdOrClassPass vals b)) →
      ∃ e, e ∈ elemsInList (Elem.children b) ∧ shellEq e' e = true
  | [], b, e', h => ⟨e', h, shellEq_refl e'⟩
  | v :: vs, b, e', h => by
    have hstep : stripIdOrClassPass (v :: vs) b =
        stripIdOrClassPass vs
          (dropWhere (matchesIdOrClass (pyStripQuotes v)) b) := rfl
    rw [hstep] at h
    obtain ⟨e1, he1, hs1⟩ := stripIdOrClassPass_shell_sub vs
      (dropWhere (matchesIdOrClass (pyStripQuotes v)) b) e' h
    rw [children_dropWhere] at he1
    obtain ⟨e0, he0, hs0⟩ :=
      dropWhereList_shell_sub _ (Elem.children b) e1 he1
    exact ⟨e0, he0, shellEq_trans e' e1 e0 hs1 hs0⟩

/-- C8: the `strip_id_or_class` pass deletes every element whose id or class
attribute contains the configured value (with surrounding space and quote
characters trimmed) as a substring anywhere: after the pass, no element
below the body root matches any configured value (first conjunct); the
substring semantics means configuring "class1" deletes an element whose
class attribute is "notclass1" (second conjunct, the spec's regression
example). -/
theorem stripIdOrClass_no_surviving_match :
    (∀ (vals : List String) (body : Elem) (v : String), v ∈ vals →
        ∀ e', e' ∈ elemsInList (Elem.children (stripIdOrClassPass vals body)) →
          matchesIdOrClass (pyStripQuotes v) e' = false) ∧
      stripIdOrClassPass ["class1"] exBody =
        Elem.mk "div" [] "" [Elem.mk "p" [] "keep" []] := by
  constructor
  · intro vals
    induction vals with
    | nil =>
      intro body v hv
      exact absurd hv (List.not_mem_nil v)
    | cons v0 vs ih =>
      intro body v hv e' h
      have hstep : stripIdOrClassPass (v0 :: vs) body =
          stripIdOrClassPass vs
            (dropWhere (matchesIdOrClass (pyStripQuotes v0)) body) := rfl
      rw [hstep] at h
      rcases List.mem_cons.mp hv with hv0 | hvs
      · subst hv0
        obtain ⟨e1, he1, hs1⟩ := stripIdOrClassPass_shell_sub vs
          (dropWhere (matchesIdOrClass (pyStripQuotes v)) body) e' h
        rw [children_dropWhere] at he1
        have hm1 := dropWhereList_no_match
          (matchesIdOrClass (pyStripQuotes v))
          (fun x y hxy => matchesIdOrClass_shell (pyStripQuotes v) x y hxy)
          (Elem.children body) e1 he1
        rw [matchesIdOrClass_shell (pyStripQuotes v) e' e1 hs1]
        exact hm1
      · exact ih (dropWhere (matchesIdOrClass (pyStripQuotes v0)) body)
          v hvs e' h
  · rfl

theorem stripIdOrClass_no_surviving_match_witness :
    matchesIdOrClass (pyStripQuotes "class1")
      (Elem.mk "p" [] "keep" []) = false :=
  stripIdOrClass_no_surviving_match.1 ["class1"] exBody "class1"
    (List.mem_singleton.mpr rfl) (Elem.mk "p" [] "keep" [])
    (by
      rw [show elemsInList
            (Elem.children (stripIdOrClassPass ["class1"] exBody)) =
          [Elem.mk "p" [] "keep" []] from rfl]
      exact List.mem_singleton.mpr rfl)

end Saulify
